import Mathlib

/-!
Shallow embedding of the tabular statistics and chart-data-preparation
engine of the batch-visual-insights repository (`src/utils/dataUtils.ts`),
together with theorems settling the frozen claims about it.

Modelling conventions:
* JS numbers are modelled by `ℚ` (exact-arithmetic idealization of floats);
  square roots, which leave `ℚ`, are kept symbolic via `RVal` and are
  interpreted into `ℝ` by `RVal.toReal`.
* A matrix cell is modelled by `Cell`: `missing` covers the JS values
  `undefined`, `null` and the empty string (which the code paths under
  scrutiny treat alike); `str s pf b` is a string cell carrying its raw
  text, its `parseFloat` result (`none` encodes `NaN`) and its `isNumeric`
  verdict; `num q` is an already-numeric cell (as produced by imputation).
* Out-of-range row indexing yields JS `undefined`; `getCell` models this
  with the `missing` default.
-/

namespace BVI

/-- A matrix cell. -/
inductive Cell where
  | missing : Cell
  | str : String → Option ℚ → Bool → Cell
  | num : ℚ → Cell
deriving DecidableEq, Repr

/-- JS `parseFloat` on a cell; `none` models `NaN`
(`parseFloat` of `undefined`, `null` and `''` is `NaN`). -/
def Cell.parseFloat : Cell → Option ℚ
  | .missing => none
  | .str _ pf _ => pf
  | .num q => some q

/-- Whether the cell is a missing value (JS `undefined`, `null` or `''`). -/
def Cell.isMissing : Cell → Bool
  | .missing => true
  | _ => false

/-- The source predicate `isNumeric` applied to a cell. -/
def Cell.isNumericB : Cell → Bool
  | .missing => false
  | .str _ _ b => b
  | .num _ => true

/-- JS template-string rendering of a cell. -/
def Cell.display : Cell → String
  | .missing => "undefined"
  | .str s _ _ => s
  | .num q => toString q

/-- A matrix row: a sequence of cells. -/
abbrev Row := List Cell

/-- A matrix: row 0 is the header row, rows at index 1 and beyond are data rows. -/
abbrev Matrix := List Row

/-- JS `row[i]`: out-of-range access yields `undefined`, modelled as `missing`. -/
def getCell (row : Row) (i : ℕ) : Cell := row.getD i Cell.missing

/-- Symbolic value covering the irrational results the source produces:
a rational, the square root of a rational, a difference of two such
values, and the skewness / kurtosis aggregates of a rational sample. -/
inductive RVal where
  | rat : ℚ → RVal
  | sqrtOf : ℚ → RVal
  | sub : RVal → RVal → RVal
  | skewOf : List ℚ → RVal
  | kurtOf : List ℚ → RVal
deriving DecidableEq, Repr

/-- Arithmetic mean of a rational sample, written from the specification
words: the sum divided by the number of values. -/
def listMean (l : List ℚ) : ℚ := l.sum / l.length

/-- Population variance, written from the specification words: the mean of
squared deviations from the mean (divisor `n`, not `n - 1`). -/
def popVariance (l : List ℚ) : ℚ :=
  ((l.map (fun x => (x - listMean l) ^ 2)).sum) / l.length

noncomputable section

/-- Interpretation of symbolic values in the real numbers. -/
def RVal.toReal : RVal → ℝ
  | .rat q => (q : ℝ)
  | .sqrtOf q => Real.sqrt (q : ℝ)
  | .sub a b => a.toReal - b.toReal
  | .skewOf l =>
      ((l.map (fun x =>
        (((x : ℝ) - (listMean l : ℝ)) / Real.sqrt (popVariance l : ℝ)) ^ 3)).sum)
        / l.length
  | .kurtOf l =>
      ((l.map (fun x =>
        (((x : ℝ) - (listMean l : ℝ)) / Real.sqrt (popVariance l : ℝ)) ^ 4)).sum)
        / l.length - 3

end

/-- Per-column statistics snapshot (TS interface `DatasetSummary`). -/
structure DatasetSummary where
  columnName : String
  mean : Option ℚ
  median : Option ℚ
  min : Option ℚ
  max : Option ℚ
  stdDev : Option RVal
  variance : Option ℚ
  q1 : Option ℚ
  q3 : Option ℚ
  count : ℕ
  skewness : Option RVal
  kurtosis : Option RVal
deriving DecidableEq, Repr

/-- Fallback column name, modelling the template string with text
`Column` followed by the 1-based index. -/
def defaultColumnName (i : ℕ) : String := "Column " ++ toString (i + 1)

/-- The source expression `data[0][columnIndex] || defaultName`: an absent
cell and the empty string are falsy and select the fallback name. -/
def columnNameOf (data : Matrix) (i : ℕ) : String :=
  match getCell (data.headD []) i with
  | .missing => defaultColumnName i
  | .str s _ _ => if s = "" then defaultColumnName i else s
  | .num q => toString q

/-- Column extraction shared by `calculateStatistics` and
`prepareHistogramData`: skip the header row, apply `parseFloat` to the
cell at the column index, drop `NaN` results (the source maps then
filters; `filterMap` fuses the two). -/
def extractedValues (data : Matrix) (columnIndex : ℕ) : List ℚ :=
  (data.drop 1).filterMap (fun row => (getCell row columnIndex).parseFloat)

/-- JS `Math.min(...values)` over a nonempty sample (the call sites rule
out the empty list; 0 is an arbitrary total-function default there). -/
def listMin : List ℚ → ℚ
  | [] => 0
  | x :: xs => xs.foldl min x

/-- JS `Math.max(...values)` over a nonempty sample. -/
def listMax : List ℚ → ℚ
  | [] => 0
  | x :: xs => xs.foldl max x

/-- The all-null summary returned by `calculateStatistics` when no
numeric value survives extraction. -/
def nullSummaryFor (columnName : String) : DatasetSummary :=
  { columnName := columnName
    mean := none, median := none, min := none, max := none
    stdDev := none, variance := none, q1 := none, q3 := none
    count := 0, skewness := none, kurtosis := none }

/-- Embedding of `calculateStatistics` (dataUtils.ts lines 449-520). -/
def calculateStatistics (data : Matrix) (columnIndex : ℕ) : DatasetSummary :=
  let values := extractedValues data columnIndex
  let columnName := columnNameOf data columnIndex
  if values.length = 0 then
    nullSummaryFor columnName
  else
    let sum := values.foldl (· + ·) 0
    let mean := sum / (values.length : ℚ)
    let sortedValues := values.insertionSort (· ≤ ·)
    let middle := sortedValues.length / 2
    let median :=
      if sortedValues.length % 2 = 0 then
        (sortedValues.getD (middle - 1) 0 + sortedValues.getD middle 0) / 2
      else sortedValues.getD middle 0
    let mn := listMin values
    let mx := listMax values
    let q1Index := Nat.floor ((sortedValues.length : ℚ) * 0.25)
    let q3Index := Nat.floor ((sortedValues.length : ℚ) * 0.75)
    let q1 := sortedValues.getD q1Index 0
    let q3 := sortedValues.getD q3Index 0
    let squaredDifferences := values.map (fun v => (v - mean) ^ 2)
    let variance := squaredDifferences.foldl (· + ·) 0 / (values.length : ℚ)
    { columnName := columnName
      mean := some mean, median := some median, min := some mn, max := some mx
      stdDev := some (RVal.sqrtOf variance), variance := some variance
      q1 := some q1, q3 := some q3, count := values.length
      skewness := some (RVal.skewOf values), kurtosis := some (RVal.kurtOf values) }

/-- Whitespace trimming at both ends of a character sequence, modelling
JS `String.trim`. -/
def trimChars (l : List Char) : List Char :=
  ((l.dropWhile Char.isWhitespace).reverse.dropWhile Char.isWhitespace).reverse

/-- JS `split('\n')` on a character sequence: it never returns an empty
list — the empty input yields one empty line. -/
def splitOnNewline : List Char → List (List Char)
  | [] => [[]]
  | c :: rest =>
    let r := splitOnNewline rest
    if c = '\n' then [] :: r
    else (c :: r.headD []) :: r.tail

/-- Per-line character scan of `parseCSV`: a double quote not immediately
preceded by a backslash toggles the in-quotes flag, a comma outside quotes
closes the current field (trimmed), any other character accumulates. -/
def parseCSVLineGo : List Char → Option Char → Bool → String → List String → List String
  | [], _, _, currentField, arr => arr ++ [String.mk (trimChars currentField.data)]
  | c :: rest, prev, inQuotes, currentField, arr =>
    if c = '"' ∧ prev ≠ some '\\' then
      parseCSVLineGo rest (some c) (!inQuotes) currentField arr
    else if c = ',' ∧ inQuotes = false then
      parseCSVLineGo rest (some c) inQuotes ""
        (arr ++ [String.mk (trimChars currentField.data)])
    else
      parseCSVLineGo rest (some c) inQuotes (currentField.push c) arr

/-- Parse one CSV line into its fields. -/
def parseCSVLine (line : List Char) : List String :=
  parseCSVLineGo line none false "" []

/-- Embedding of `parseCSV` (dataUtils.ts lines 388-412): trim the input,
split on newline, scan each line.  Note JS `split` on the empty string
yields a one-element array of the empty string, exactly as
`splitOnNewline` does. -/
def parseCSV (csv : String) : List (List String) :=
  (splitOnNewline (trimChars csv.data)).map parseCSVLine

/-- A label/value pair extracted by the bar and pie chart preparers. -/
structure LV where
  label : Cell
  value : ℚ
deriving DecidableEq, Repr

/-- A name/value pair extracted by the treemap preparer. -/
structure TM where
  name : String
  value : ℚ
deriving DecidableEq, Repr

/-- Descending-by-value comparison used by the preparers
(the JS comparator subtracts values, sorting in descending order). -/
def descBy (f : α → ℚ) (a b : α) : Prop := f b ≤ f a

instance (f : α → ℚ) : DecidableRel (descBy f) := fun a b => by
  unfold descBy; infer_instance

instance (f : α → ℚ) : IsTotal α (descBy f) := ⟨fun a b => le_total (f b) (f a)⟩

instance (f : α → ℚ) : IsTrans α (descBy f) := ⟨fun _ _ _ h1 h2 => le_trans h2 h1⟩

/-- One step of the JS `reduce`-based deduplication: the current element
is appended only when no already-kept element has the same key. -/
def jsDedupStep (key : α → β) [DecidableEq β] (acc : List α) (c : α) : List α :=
  if acc.any (fun item => key item = key c) then acc else acc ++ [c]

/-- The JS `reduce`-based deduplication: the first occurrence of each key
survives, in order. -/
def jsDedup (key : α → β) [DecidableEq β] (l : List α) : List α :=
  l.foldl (jsDedupStep key) []

/-- Shared pipeline of the bar and pie preparers: extract label/value
pairs from the first `limit` data rows (`slice(1, limit + 1)`), drop pairs
whose value parses to `NaN`, sort descending by value, deduplicate by
label, then cap at `limit` entries. -/
def rawPairs (data : Matrix) (labelColumnIndex valueColumnIndex : ℕ) (limit : ℕ) : List LV :=
  ((data.drop 1).take limit).filterMap (fun row =>
    ((getCell row valueColumnIndex).parseFloat).map
      (fun q => { label := getCell row labelColumnIndex, value := q }))

/-- The deduplicated, capped entry list shared by `prepareBarChartData`
and `preparePieChartData`. -/
def limitedLabelValueData (data : Matrix) (labelColumnIndex valueColumnIndex : ℕ)
    (limit : ℕ) : List LV :=
  ((jsDedup LV.label
    ((rawPairs data labelColumnIndex valueColumnIndex limit).insertionSort
      (descBy LV.value))).take limit)

/-- Chart payload: the `labels` array and the single dataset's `data`
array (the colour and border fields of the source carry no data and are
not modelled). -/
structure ChartData where
  labels : List Cell
  values : List ℚ
deriving DecidableEq, Repr

/-- Embedding of `prepareBarChartData` (dataUtils.ts lines 830-880). -/
def prepareBarChartData (data : Matrix) (labelColumnIndex valueColumnIndex : ℕ)
    (limit : ℕ := 10) : ChartData :=
  let limitedData := limitedLabelValueData data labelColumnIndex valueColumnIndex limit
  { labels := limitedData.map LV.label, values := limitedData.map LV.value }

/-- The synthetic label of the merged under-1% bucket of the pie chart. -/
def othersLabel : Cell := Cell.str "Others" none false

/-- JS comparison `item.value / total >= 0.01`.  When `total = 0`, JS
division yields `Infinity` (for a positive value, making the comparison
true), `-Infinity` (negative value, false) or `NaN` (zero value, false);
field division in `ℚ` would instead give 0, so the zero-total case is
spelled out. -/
def ratioAtLeast1pc (v total : ℚ) : Bool :=
  if total = 0 then decide (0 < v) else decide ((1 : ℚ) / 100 ≤ v / total)

/-- JS comparison `item.value / total < 0.01`, with the same zero-total
case analysis as `ratioAtLeast1pc`. -/
def ratioBelow1pc (v total : ℚ) : Bool :=
  if total = 0 then decide (v < 0) else decide (v / total < (1 : ℚ) / 100)

/-- Embedding of `preparePieChartData` (dataUtils.ts lines 883-944). -/
def preparePieChartData (data : Matrix) (labelColumnIndex valueColumnIndex : ℕ)
    (limit : ℕ := 8) : ChartData :=
  let limitedData := limitedLabelValueData data labelColumnIndex valueColumnIndex limit
  let total := (limitedData.map LV.value).sum
  let significantData := limitedData.filter (fun item => ratioAtLeast1pc item.value total)
  let otherSum := ((limitedData.filter (fun item => ratioBelow1pc item.value total)).map
    LV.value).sum
  let finalData :=
    if 0 < otherSum then significantData ++ [{ label := othersLabel, value := otherSum }]
    else significantData
  { labels := finalData.map LV.label, values := finalData.map LV.value }

/-- Embedding of `prepareTreeMapData` (dataUtils.ts lines 1045-1071): the
category name is the first column's cell rendered after the fixed text
`Category` and a space. -/
def prepareTreeMapData (data : Matrix) (valueColumnIndex : ℕ) (limit : ℕ := 10) : List TM :=
  ((jsDedup TM.name
    ((((data.drop 1).take limit).filterMap (fun row =>
        ((getCell row valueColumnIndex).parseFloat).map
          (fun q => { name := "Category " ++ (getCell row 0).display, value := q }))).insertionSort
      (descBy TM.value))).take limit)

/-- The bin index `Math.floor((value - min) / binWidth)` of the histogram,
with the maximum forced into the last bin. -/
def binIndexOf (mn mx : ℚ) (bins : ℕ) (v : ℚ) : ℕ :=
  if v = mx then bins - 1
  else Nat.floor ((v - mn) / ((mx - mn) / (bins : ℚ)))

/-- Increment the counter at index `i` (JS `histogram[binIndex]++`). -/
def bumpAt (l : List ℕ) (i : ℕ) : List ℕ := l.set i (l.getD i 0 + 1)

/-- Histogram payload: numeric bin bounds (the source renders them with
two-decimal formatting, abstracted here to the bounds themselves) and the
per-bin counts. -/
structure HistogramData where
  labels : List (ℚ × ℚ)
  counts : List ℕ
deriving DecidableEq, Repr

/-- Embedding of `prepareHistogramData` (dataUtils.ts lines 947-1000). -/
def prepareHistogramData (data : Matrix) (columnIndex : ℕ) (bins : ℕ := 10) : HistogramData :=
  let values := extractedValues data columnIndex
  if values.length = 0 then { labels := [], counts := [] }
  else
    let mn := listMin values
    let mx := listMax values
    let binWidth := (mx - mn) / (bins : ℚ)
    let binLabels := (List.range bins).map
      (fun i => (mn + (i : ℚ) * binWidth, mn + ((i : ℚ) + 1) * binWidth))
    let histogram := values.foldl
      (fun h v => bumpAt h (binIndexOf mn mx bins v)) (List.replicate bins 0)
    { labels := binLabels, counts := histogram }

/-- The z-score outlier test `Math.abs((value - mean) / stdDev) > threshold`
restated without the irrational `stdDev = sqrt(variance)`:
with `variance = 0` every tested value equals the mean (exact arithmetic),
its z-score is `0 / 0 = NaN` and the JS comparison is false; with
`variance > 0` and a negative threshold the nonnegative z-score always
exceeds it; otherwise squaring both sides of
`abs (v - mean) / sqrt variance > threshold` gives the rational
comparison below. -/
def zOutlier (mean variance threshold v : ℚ) : Bool :=
  if variance = 0 then false
  else if threshold < 0 then true
  else decide ((v - mean) ^ 2 > threshold ^ 2 * variance)

/-- Embedding of `detectOutliersZScore` (dataUtils.ts lines 653-672):
population mean and variance of the unsorted input, then the parallel
outlier-value and outlier-index arrays (`List.enum` pairs each element
with its position, as the JS `forEach` index does). -/
def detectOutliersZScore (data : List ℚ) (threshold : ℚ := 3) : List ℚ × List ℕ :=
  let mean := data.foldl (· + ·) 0 / (data.length : ℚ)
  let variance := (data.map (fun v => (v - mean) ^ 2)).foldl (· + ·) 0 / (data.length : ℚ)
  let flagged := data.enum.filter (fun p => zOutlier mean variance threshold p.2)
  (flagged.map (fun p => p.2), flagged.map (fun p => p.1))

/-- The missing-value handling methods of `handleMissingValues`. -/
inductive MVMethod where
  | remove
  | meanMethod
  | medianMethod
  | value
deriving DecidableEq, Repr

/-- The column's non-missing, numeric-parseable values, as collected by
`handleMissingValues`: drop `undefined` / `null` / `''`, parse cells that
pass `isNumeric`, keep only the numeric results. -/
def columnNumericValues (data : Matrix) (j : ℕ) : List ℚ :=
  (data.drop 1).filterMap (fun row =>
    let c := getCell row j
    if c.isMissing then none
    else if c.isNumericB then c.parseFloat else none)

/-- The median computation of `handleMissingValues` (identical to the one
in `calculateStatistics`). -/
def listMedian (l : List ℚ) : ℚ :=
  let sorted := l.insertionSort (· ≤ ·)
  let middle := sorted.length / 2
  if sorted.length % 2 = 0 then (sorted.getD (middle - 1) 0 + sorted.getD middle 0) / 2
  else sorted.getD middle 0

/-- The per-column `columnStats` entry of `handleMissingValues`: mean and
median of the column's numeric values, absent when the column has none. -/
def columnStatsFor (data : Matrix) (j : ℕ) : Option (ℚ × ℚ) :=
  let nv := columnNumericValues data j
  if nv.length = 0 then none else some (listMean nv, listMedian nv)

/-- Whether a row contains a missing cell. -/
def rowHasMissing (row : Row) : Bool := row.any Cell.isMissing

/-- The per-cell replacement of the source's inner loop: a missing cell
is replaced by the column's mean / median when a `columnStats` entry
exists (`stats` is that lookup, `none` where the source never computed an
entry), by the replacement value under method `value`, and kept
otherwise. -/
def imputeCell (stats : ℕ → Option (ℚ × ℚ)) (method : MVMethod)
    (replacement : Option Cell) (j : ℕ) (c : Cell) : Cell :=
  if c.isMissing then
    match method with
    | .meanMethod => match stats j with
      | some st => Cell.num st.1
      | none => c
    | .medianMethod => match stats j with
      | some st => Cell.num st.2
      | none => c
    | .value => match replacement with
      | some r => r
      | none => c
    | .remove => c
  else c

/-- Replacement of the missing cells of one row, walking the row with the
column index `j` exactly as the source's inner loop does. -/
def imputeRowGo (stats : ℕ → Option (ℚ × ℚ)) (method : MVMethod)
    (replacement : Option Cell) : ℕ → List Cell → List Cell
  | _, [] => []
  | j, c :: rest =>
    imputeCell stats method replacement j c ::
      imputeRowGo stats method replacement (j + 1) rest

/-- Row replacement starting at column 0. -/
def imputeRow (stats : ℕ → Option (ℚ × ℚ)) (method : MVMethod)
    (replacement : Option Cell) (row : Row) : Row :=
  imputeRowGo stats method replacement 0 row

/-- Embedding of `handleMissingValues` (dataUtils.ts lines 760-827).
Column statistics exist only for method `mean` / `median` and only for
column indices below the header length (the source's `columnStats` loop
bound); a processed row is kept unless the method is `remove` and the
original row had a missing cell. -/
def handleMissingValues (data : Matrix) (method : MVMethod)
    (replacement : Option Cell) : Matrix :=
  if data.length ≤ 1 then data
  else
    let headers := data.headD []
    let stats : ℕ → Option (ℚ × ℚ) := fun j =>
      if (method = .meanMethod ∨ method = .medianMethod) ∧ j < headers.length then
        columnStatsFor data j
      else none
    headers :: (data.drop 1).filterMap (fun row =>
      if method = .remove ∧ rowHasMissing row then none
      else some (imputeRow stats method replacement row))

/-- One dataset as supplied to `compareDatasets`. -/
structure Dataset where
  id : String
  name : String
  data : Matrix
  headers : List String
  columnIndices : List ℕ
deriving DecidableEq, Repr

/-- The source expression `dataset.headers[columnIdx] || defaultName`:
an absent entry and the empty string are falsy. -/
def headerName (headers : List String) (i : ℕ) : String :=
  let h := headers.getD i ""
  if h = "" then defaultColumnName i else h

/-- JS `Set.add`: append the id unless already present. -/
def addToSet (s : List String) (id : String) : List String :=
  if id ∈ s then s else s ++ [id]

/-- Insertion-order-preserving update of the `allColumns` map: record
that dataset `id` contributes column name `cname`. -/
def addColumn : List (String × List String) → String → String → List (String × List String)
  | [], cname, id => [(cname, [id])]
  | (k, s) :: rest, cname, id =>
    if k = cname then (k, addToSet s id) :: rest
    else (k, s) :: addColumn rest cname id

/-- The `allColumns` map of `compareDatasets`: for each column name (via
`headerName` of each selected index), the set of contributing dataset
ids, in insertion order. -/
def allColumnsOf (datasets : List Dataset) : List (String × List String) :=
  datasets.foldl (fun m ds =>
    ds.columnIndices.foldl (fun m ci => addColumn m (headerName ds.headers ci) ds.id) m) []

/-- The helper `calculateDifference` (dataUtils.ts lines 597-600) at the
rational statistics fields: 0 when either side is null, else the
difference. -/
def calculateDifference : Option ℚ → Option ℚ → ℚ
  | some a, some b => a - b
  | _, _ => 0

/-- The same helper applied to the symbolic `stdDev` field. -/
def calculateDifferenceR : Option RVal → Option RVal → RVal
  | some a, some b => RVal.sub a b
  | _, _ => RVal.rat 0

/-- The per-statistic difference record of a `ComparisonResult`. -/
structure DiffRecord where
  mean : ℚ
  median : ℚ
  stdDev : RVal
  min : ℚ
  max : ℚ
  variance : ℚ
deriving DecidableEq, Repr

/-- One comparison result: the column name, each matching dataset's
`(id, name, stats)` triple, and the difference records. -/
structure ComparisonResult where
  columnName : String
  datasets : List (String × String × DatasetSummary)
  differences : List DiffRecord
deriving Repr

/-- Embedding of `compareDatasets` (dataUtils.ts lines 523-594). -/
def compareDatasets (datasets : List Dataset) : List ComparisonResult :=
  if datasets.length = 0 then []
  else
    (allColumnsOf datasets).filterMap (fun p =>
      if p.2.length < 2 then none
      else
        let datasetsWithColumn := datasets.filter
          (fun ds => p.2.contains ds.id && ds.headers.contains p.1)
        let datasetStats := datasetsWithColumn.map (fun ds =>
          (ds.id, ds.name, calculateStatistics ds.data (ds.headers.indexOf p.1)))
        let differences :=
          match datasetStats with
          | [d1, d2] =>
            [{ mean := calculateDifference d1.2.2.mean d2.2.2.mean
               median := calculateDifference d1.2.2.median d2.2.2.median
               stdDev := calculateDifferenceR d1.2.2.stdDev d2.2.2.stdDev
               min := calculateDifference d1.2.2.min d2.2.2.min
               max := calculateDifference d1.2.2.max d2.2.2.max
               variance := calculateDifference d1.2.2.variance d2.2.2.variance }]
          | _ => []
        some { columnName := p.1, datasets := datasetStats, differences := differences })

/-- One CSV field of the export, keeping the numeric rendering of the
source symbolic: `na` prints as `N/A`, `exponential` via
`toExponential(4)`, `plain` via default number-to-string conversion,
`countOf` as the plain count, `quoted` as a double-quoted string and
`text` as raw header text. -/
inductive ExportField where
  | na
  | exponential : RVal → ExportField
  | plain : RVal → ExportField
  | countOf : ℕ → ExportField
  | quoted : String → ExportField
  | text : String → ExportField
deriving DecidableEq, Repr

/-- Whether the absolute value of a symbolic value is below `t`
(used with `t = 1/10000 > 0`; for `sqrtOf q` the source value is
`Real.sqrt q` of a variance `q ≥ 0`, so the test is `q < t ^ 2`; the
remaining constructors never reach this formatter). -/
def rvalAbsLt (v : RVal) (t : ℚ) : Bool :=
  match v with
  | .rat q => decide (|q| < t)
  | .sqrtOf q => decide (q < t ^ 2)
  | _ => false

/-- The helper `formatValue` (dataUtils.ts lines 620-624) on a rational
field. -/
def formatValue (v : Option ℚ) : ExportField :=
  match v with
  | none => ExportField.na
  | some q =>
    if |q| < (1 : ℚ) / 10000 then ExportField.exponential (RVal.rat q)
    else ExportField.plain (RVal.rat q)

/-- The helper `formatValue` on the symbolic `stdDev` field. -/
def formatValueR (v : Option RVal) : ExportField :=
  match v with
  | none => ExportField.na
  | some r =>
    if rvalAbsLt r ((1 : ℚ) / 10000) then ExportField.exponential r
    else ExportField.plain r

/-- The Count field `${summary.count || 'N/A'}`: the count 0 is falsy and
prints as `N/A`. -/
def countField (n : ℕ) : ExportField :=
  if n = 0 then ExportField.na else ExportField.countOf n

/-- One exported statistics row. -/
def exportRow (fileName : String) (s : DatasetSummary) : List ExportField :=
  [ExportField.quoted s.columnName, ExportField.quoted fileName,
   formatValue s.mean, formatValue s.median, formatValue s.min, formatValue s.max,
   formatValueR s.stdDev, formatValue s.variance, countField s.count]

/-- The fixed header row of the export. -/
def exportHeader : List ExportField :=
  [ExportField.text "Column Name", ExportField.text "File Name",
   ExportField.text "Mean", ExportField.text "Median", ExportField.text "Min",
   ExportField.text "Max", ExportField.text "Standard Deviation",
   ExportField.text "Variance", ExportField.text "Count"]

/-- Embedding of `formatStatisticsForExport` (dataUtils.ts lines
603-617): one row per summaries entry whose key has a selected column
(carrying that column's file name), after the fixed header row.  The CSV
text is modelled as the list of rows of fields. -/
def formatStatisticsForExport (summaries : List (String × DatasetSummary))
    (selectedColumns : String → Option String) : List (List ExportField) :=
  exportHeader :: summaries.filterMap (fun e =>
    (selectedColumns e.1).map (fun fileName => exportRow fileName e.2))

/-! ### Shared helper lemmas and concrete sample data -/

theorem foldl_add_eq_sum (l : List ℚ) (a : ℚ) : l.foldl (· + ·) a = a + l.sum := by
  induction l generalizing a with
  | nil => simp
  | cons x xs ih => simp only [List.foldl_cons, ih, List.sum_cons]; ring

theorem foldl_add_zero (l : List ℚ) : l.foldl (· + ·) 0 = l.sum := by
  simpa using foldl_add_eq_sum l 0

/-- A string cell that does not parse as a number. -/
def strCell (s : String) : Cell := Cell.str s none false

/-- A string cell that parses as the number `q`. -/
def numCell (s : String) (q : ℚ) : Cell := Cell.str s (some q) true

/-- The example matrix of specification scenario 1
(CSV text with header `a,b` and rows `1,2`, `3,4`, `5,6`). -/
def exMatrix : Matrix :=
  [[strCell "a", strCell "b"],
   [numCell "1" 1, numCell "2" 2],
   [numCell "3" 3, numCell "4" 4],
   [numCell "5" 5, numCell "6" 6]]

/-- A matrix with a header row and no data rows. -/
def exHeaderOnly : Matrix := [[strCell "h"]]

/-! ### Claim C3: parseCSV on the empty string -/

/-- Claim C3 counterexample: `parseCSV ""` is not an empty matrix — JS
`''.split('\n')` is `['']`, so one row (holding one empty field) comes
back. -/
theorem claim_C3_counterexample : ¬ (parseCSV "").length = 0 := by decide

/-- Claim C3 (amended): `parseCSV` applied to the empty string returns a
matrix with exactly one row holding a single empty-string field. -/
theorem claim_C3 : parseCSV "" = [[""]] := rfl

/-! ### Claims C8 and C9: z-score outlier detection -/

/-- Monotonicity of the z-score outlier test in the threshold. -/
theorem zOutlier_mono {m var T1 T2 v : ℚ} (hvar : 0 ≤ var) (h12 : T1 < T2)
    (h : zOutlier m var T2 v = true) : zOutlier m var T1 v = true := by
  unfold zOutlier at h ⊢
  by_cases h0 : var = 0
  · simp [h0] at h
  · simp only [h0, if_false] at h ⊢
    by_cases hT1 : T1 < 0
    · simp [hT1]
    · have hT2 : ¬ T2 < 0 := fun h' => hT1 (lt_trans h12 h')
      simp only [hT2, if_false, decide_eq_true_eq] at h
      simp only [hT1, if_false, decide_eq_true_eq]
      have hle : T1 ^ 2 * var ≤ T2 ^ 2 * var :=
        mul_le_mul_of_nonneg_right
          (pow_le_pow_left₀ (not_lt.mp hT1) (le_of_lt h12) 2) hvar
      exact lt_of_le_of_lt hle h

/-- The variance computed inside `detectOutliersZScore` is nonnegative. -/
theorem zVariance_nonneg (data : List ℚ) :
    0 ≤ (data.map (fun v =>
      (v - data.foldl (· + ·) 0 / (data.length : ℚ)) ^ 2)).foldl (· + ·) 0 /
      (data.length : ℚ) := by
  apply div_nonneg
  · rw [foldl_add_zero]
    refine List.sum_nonneg fun x hx => ?_
    obtain ⟨v, _, rfl⟩ := List.mem_map.mp hx
    positivity
  · positivity

/-- Claim C8: raising the z-score threshold can only shrink the outlier
value array and the parallel index array. -/
theorem claim_C8 (data : List ℚ) (T1 T2 : ℚ) (h12 : T1 < T2) :
    (detectOutliersZScore data T2).1 ⊆ (detectOutliersZScore data T1).1 ∧
    (detectOutliersZScore data T2).2 ⊆ (detectOutliersZScore data T1).2 := by
  have hvar := zVariance_nonneg data
  constructor <;>
  · intro x hx
    simp only [detectOutliersZScore, List.mem_map, List.mem_filter] at hx ⊢
    obtain ⟨p, ⟨hpe, hpo⟩, rfl⟩ := hx
    exact ⟨p, ⟨hpe, zOutlier_mono hvar h12 hpo⟩, rfl⟩

/-- Claim C8 witness at the specification's example column with
thresholds 2 and 3. -/
theorem claim_C8_witness :
    (detectOutliersZScore [10, 12, 12, 13, 12, 200] 3).1 ⊆
      (detectOutliersZScore [10, 12, 12, 13, 12, 200] 2).1 ∧
    (detectOutliersZScore [10, 12, 12, 13, 12, 200] 3).2 ⊆
      (detectOutliersZScore [10, 12, 12, 13, 12, 200] 2).2 :=
  claim_C8 [10, 12, 12, 13, 12, 200] 2 3 (by norm_num)

/-- Claim C9: on a constant sample the computed variance is zero, every
z-score is the JS `0 / 0 = NaN` whose comparison with the threshold is
false, so no outliers are reported. -/
theorem claim_C9 (data : List ℚ) (c T : ℚ) (hne : data ≠ [])
    (hc : ∀ x ∈ data, x = c) (_hT : 0 < T) :
    detectOutliersZScore data T = ([], []) := by
  have hlen : data.length ≠ 0 := fun h => hne (List.length_eq_zero.mp h)
  have hlenQ : (data.length : ℚ) ≠ 0 := Nat.cast_ne_zero.mpr hlen
  have hmean : data.sum / (data.length : ℚ) = c := by
    rw [List.sum_eq_card_nsmul data c hc, nsmul_eq_mul]
    exact mul_div_cancel_left₀ c hlenQ
  have hmap : data.map (fun v =>
      (v - data.sum / (data.length : ℚ)) ^ 2) =
      data.map (fun _ => (0 : ℚ)) :=
    List.map_congr_left fun x hx => by rw [hmean, hc x hx]; ring
  simp only [detectOutliersZScore, foldl_add_zero]
  simp only [hmap, List.map_const', List.sum_replicate, smul_zero, zero_div]
  simp [zOutlier]

/-- Claim C9 witness: a constant sample of three values at threshold 3. -/
theorem claim_C9_witness : detectOutliersZScore [5, 5, 5] 3 = ([], []) :=
  claim_C9 [5, 5, 5] 5 3 (by decide) (by decide) (by decide)

/-! ### Claim C1: calculateStatistics -/

/-- The ascending sort of a rational sample, written from the
specification words. -/
def sortedAsc (l : List ℚ) : List ℚ := l.insertionSort (· ≤ ·)

theorem popVariance_foldl (l : List ℚ) :
    (l.map (fun v => (v - l.foldl (· + ·) 0 / (l.length : ℚ)) ^ 2)).foldl (· + ·) 0 /
      (l.length : ℚ) = popVariance l := by
  simp only [foldl_add_zero, popVariance, listMean]

/-- Claim C1: with no surviving numeric value every statistic is null and
the count is 0; with `n ≥ 1` values the variance is the population
variance (mean of squared deviations, divisor `n`), the standard
deviation read in `ℝ` is its square root, and the quartiles are the
entries of the ascending-sorted sample at indices `floor (n * 0.25)` and
`floor (n * 0.75)`. -/
theorem claim_C1 (data : Matrix) (ci : ℕ) :
    ((extractedValues data ci).length = 0 →
      calculateStatistics data ci = nullSummaryFor (columnNameOf data ci)) ∧
    (1 ≤ (extractedValues data ci).length →
      (calculateStatistics data ci).variance =
        some (popVariance (extractedValues data ci)) ∧
      ((calculateStatistics data ci).stdDev).map RVal.toReal =
        some (Real.sqrt ((popVariance (extractedValues data ci) : ℚ) : ℝ)) ∧
      (calculateStatistics data ci).q1 =
        some ((sortedAsc (extractedValues data ci)).getD
          (Nat.floor (((extractedValues data ci).length : ℚ) * 0.25)) 0) ∧
      (calculateStatistics data ci).q3 =
        some ((sortedAsc (extractedValues data ci)).getD
          (Nat.floor (((extractedValues data ci).length : ℚ) * 0.75)) 0) ∧
      (calculateStatistics data ci).count = (extractedValues data ci).length) := by
  constructor
  · intro h
    simp only [calculateStatistics, if_pos h]
  · intro h
    have h0 : ¬ (extractedValues data ci).length = 0 := by omega
    simp only [calculateStatistics, if_neg h0]
    refine ⟨?_, ?_, ?_, ?_, trivial⟩
    · exact congrArg some (popVariance_foldl _)
    · show some (RVal.toReal (RVal.sqrtOf _)) = _
      rw [RVal.toReal, popVariance_foldl]
    · show some _ = some _
      simp only [sortedAsc, List.length_insertionSort]
    · show some _ = some _
      simp only [sortedAsc, List.length_insertionSort]

/-- Claim C1 witness: the nonempty case at the example matrix of
specification scenario 1, the empty case at a header-only matrix. -/
theorem claim_C1_witness :
    ((calculateStatistics exMatrix 0).variance =
        some (popVariance (extractedValues exMatrix 0)) ∧
      (calculateStatistics exMatrix 0).count = (extractedValues exMatrix 0).length) ∧
    calculateStatistics exHeaderOnly 0 = nullSummaryFor (columnNameOf exHeaderOnly 0) := by
  refine ⟨⟨?_, ?_⟩, ?_⟩
  · exact ((claim_C1 exMatrix 0).2 (by decide)).1
  · exact ((claim_C1 exMatrix 0).2 (by decide)).2.2.2.2
  · exact (claim_C1 exHeaderOnly 0).1 (by decide)

/-! ### Claim C7: histogram bin counts -/

theorem length_bumpAt (l : List ℕ) (i : ℕ) : (bumpAt l i).length = l.length := by
  simp [bumpAt]

theorem sum_bumpAt (l : List ℕ) (i : ℕ) (h : i < l.length) :
    (bumpAt l i).sum = l.sum + 1 := by
  induction l generalizing i with
  | nil => simp at h
  | cons x xs ih =>
    cases i with
    | zero => simp [bumpAt]; omega
    | succ n =>
      have h' : n < xs.length := by simpa using h
      have hx := ih n h'
      simp only [bumpAt, List.getD_cons_succ, List.set_cons_succ, List.sum_cons] at hx ⊢
      omega

theorem histo_fold_sum (idx : ℚ → ℕ) :
    ∀ (vs : List ℚ) (h : List ℕ), (∀ v ∈ vs, idx v < h.length) →
      (vs.foldl (fun acc v => bumpAt acc (idx v)) h).sum = h.sum + vs.length := by
  intro vs
  induction vs with
  | nil => intro h _; simp
  | cons v vs ih =>
    intro h hin
    have hv : idx v < h.length := hin v (by simp)
    have hin' : ∀ w ∈ vs, idx w < (bumpAt h (idx v)).length := by
      intro w hw; rw [length_bumpAt]; exact hin w (by simp [hw])
    have hs := ih (bumpAt h (idx v)) hin'
    rw [List.foldl_cons, hs, sum_bumpAt h _ hv, List.length_cons]
    omega

theorem foldl_min_le (xs : List ℚ) (a : ℚ) :
    xs.foldl min a ≤ a ∧ ∀ v ∈ xs, xs.foldl min a ≤ v := by
  induction xs generalizing a with
  | nil => simp
  | cons y ys ih =>
    obtain ⟨h1, h2⟩ := ih (min a y)
    refine ⟨le_trans h1 (min_le_left _ _), ?_⟩
    intro v hv
    rcases List.mem_cons.mp hv with rfl | hv
    · exact le_trans h1 (min_le_right _ _)
    · exact h2 v hv

theorem le_foldl_max (xs : List ℚ) (a : ℚ) :
    a ≤ xs.foldl max a ∧ ∀ v ∈ xs, v ≤ xs.foldl max a := by
  induction xs generalizing a with
  | nil => simp
  | cons y ys ih =>
    obtain ⟨h1, h2⟩ := ih (max a y)
    refine ⟨le_trans (le_max_left _ _) h1, ?_⟩
    intro v hv
    rcases List.mem_cons.mp hv with rfl | hv
    · exact le_trans (le_max_right _ _) h1
    · exact h2 v hv

theorem listMin_le (l : List ℚ) (v : ℚ) (hv : v ∈ l) : listMin l ≤ v := by
  cases l with
  | nil => simp at hv
  | cons x xs =>
    rcases List.mem_cons.mp hv with rfl | hv
    · exact (foldl_min_le xs v).1
    · exact (foldl_min_le xs x).2 v hv

theorem le_listMax (l : List ℚ) (v : ℚ) (hv : v ∈ l) : v ≤ listMax l := by
  cases l with
  | nil => simp at hv
  | cons x xs =>
    rcases List.mem_cons.mp hv with rfl | hv
    · exact (le_foldl_max xs v).1
    · exact (le_foldl_max xs x).2 v hv

theorem binIndexOf_lt {mn mx v : ℚ} {bins : ℕ} (hb : 1 ≤ bins)
    (h1 : mn ≤ v) (h2 : v ≤ mx) : binIndexOf mn mx bins v < bins := by
  unfold binIndexOf
  by_cases he : v = mx
  · rw [if_pos he]; omega
  · have hlt : v < mx := lt_of_le_of_ne h2 he
    have hmn : mn < mx := lt_of_le_of_lt h1 hlt
    rw [if_neg he]
    have hbq : (0 : ℚ) < (bins : ℚ) := by exact_mod_cast Nat.pos_of_ne_zero (by omega)
    have hw : (0 : ℚ) < (mx - mn) / (bins : ℚ) := div_pos (by linarith) hbq
    have harg : 0 ≤ (v - mn) / ((mx - mn) / (bins : ℚ)) :=
      div_nonneg (by linarith) (le_of_lt hw)
    rw [Nat.floor_lt harg, div_lt_iff₀ hw]
    have hcancel : (bins : ℚ) * ((mx - mn) / (bins : ℚ)) = mx - mn := by
      field_simp
    linarith [hcancel]

/-- Claim C7: the histogram bin counts sum exactly to the number of
finite numeric values extracted from the column (every value lands in
one in-range bin, the maximum being forced into the last bin). -/
theorem claim_C7 (data : Matrix) (ci bins : ℕ) (hb : 1 ≤ bins) :
    (prepareHistogramData data ci bins).counts.sum =
      (extractedValues data ci).length := by
  by_cases h0 : (extractedValues data ci).length = 0
  · simp only [prepareHistogramData, if_pos h0]
    simpa using h0.symm
  · simp only [prepareHistogramData, if_neg h0]
    have hin : ∀ v ∈ extractedValues data ci,
        binIndexOf (listMin (extractedValues data ci))
          (listMax (extractedValues data ci)) bins v <
          (List.replicate bins (0 : ℕ)).length := by
      intro v hv
      rw [List.length_replicate]
      exact binIndexOf_lt hb (listMin_le _ v hv) (le_listMax _ v hv)
    have hs := histo_fold_sum
      (fun v => binIndexOf (listMin (extractedValues data ci))
        (listMax (extractedValues data ci)) bins v)
      (extractedValues data ci) (List.replicate bins 0) hin
    simp only [List.sum_replicate, smul_zero, zero_add] at hs
    exact hs

/-- Claim C7 witness at the example matrix with the default 10 bins. -/
theorem claim_C7_witness :
    (prepareHistogramData exMatrix 0 10).counts.sum =
      (extractedValues exMatrix 0).length :=
  claim_C7 exMatrix 0 10 (by decide)

/-! ### Claim C10: the exported Count field -/

/-- Claim C10: every summaries entry with a selected column produces its
export row, and that row's Count field (index 8) is `N/A` exactly when
the count is 0, the plain count when it is at least 1. -/
theorem claim_C10 (summaries : List (String × DatasetSummary))
    (selectedColumns : String → Option String) (k : String) (s : DatasetSummary)
    (fn : String) (hmem : (k, s) ∈ summaries) (hsel : selectedColumns k = some fn) :
    exportRow fn s ∈ formatStatisticsForExport summaries selectedColumns ∧
    (s.count = 0 → (exportRow fn s).getD 8 ExportField.na = ExportField.na) ∧
    (1 ≤ s.count → (exportRow fn s).getD 8 ExportField.na =
      ExportField.countOf s.count) := by
  refine ⟨?_, ?_, ?_⟩
  · apply List.mem_cons_of_mem
    apply List.mem_filterMap.mpr
    exact ⟨(k, s), hmem, by simp [hsel]⟩
  · intro h
    show countField s.count = ExportField.na
    simp [countField, h]
  · intro h
    have hne : ¬ s.count = 0 := by omega
    show countField s.count = ExportField.countOf s.count
    simp [countField, hne]

/-- Concrete summaries map and column selection for the C10 witness. -/
def exSummaries : List (String × DatasetSummary) :=
  [("h-0", calculateStatistics exHeaderOnly 0)]

/-- Concrete column selection carrying the file name. -/
def exSelected : String → Option String :=
  fun k => if k = "h-0" then some "h.csv" else none

/-- Claim C10 witness: a zero-count summary exports `N/A` in the Count
field. -/
theorem claim_C10_witness :
    exportRow "h.csv" (calculateStatistics exHeaderOnly 0) ∈
      formatStatisticsForExport exSummaries exSelected ∧
    (exportRow "h.csv" (calculateStatistics exHeaderOnly 0)).getD 8 ExportField.na =
      ExportField.na := by
  have h := claim_C10 exSummaries exSelected "h-0"
    (calculateStatistics exHeaderOnly 0) "h.csv" (by decide) (by decide)
  exact ⟨h.1, h.2.1 (by decide)⟩

/-! ### Claim C5: compareDatasets -/

/-- The difference convention stated by the specification: the first
file's statistic minus the second file's, 0 when either side is null. -/
def specDiff (a b : Option ℚ) : ℚ :=
  match a, b with
  | some x, some y => x - y
  | _, _ => 0

noncomputable section

/-- The same convention read in the real numbers. -/
def specDiffReal (a b : Option ℝ) : ℝ :=
  match a, b with
  | some x, some y => x - y
  | _, _ => 0

end

theorem calculateDifference_eq_specDiff (a b : Option ℚ) :
    calculateDifference a b = specDiff a b := by
  cases a <;> cases b <;> rfl

theorem calculateDifferenceR_toReal (a b : Option RVal) :
    (calculateDifferenceR a b).toReal =
      specDiffReal (a.map RVal.toReal) (b.map RVal.toReal) := by
  cases a <;> cases b <;> simp [calculateDifferenceR, specDiffReal, RVal.toReal]

/-- Claim C5: the comparator returns an empty result list for an empty
dataset list; and whenever a column name is contributed by exactly two
dataset ids and exactly two supplied files carry it in their headers,
the emitted comparison result holds exactly one difference record whose
fields are the first file's statistic minus the second file's, with a
null on either side giving 0. -/
theorem claim_C5 :
    compareDatasets [] = [] ∧
    ∀ (datasets : List Dataset) (cname : String) (ids : List String)
      (da db : Dataset),
      (cname, ids) ∈ allColumnsOf datasets →
      ids.length = 2 →
      datasets.filter (fun ds => ids.contains ds.id && ds.headers.contains cname) =
        [da, db] →
      ∃ r ∈ compareDatasets datasets,
        r.columnName = cname ∧
        r.datasets =
          [(da.id, da.name, calculateStatistics da.data (da.headers.indexOf cname)),
           (db.id, db.name, calculateStatistics db.data (db.headers.indexOf cname))] ∧
        ∃ d, r.differences = [d] ∧
          d.mean = specDiff (calculateStatistics da.data (da.headers.indexOf cname)).mean
            (calculateStatistics db.data (db.headers.indexOf cname)).mean ∧
          d.median = specDiff
            (calculateStatistics da.data (da.headers.indexOf cname)).median
            (calculateStatistics db.data (db.headers.indexOf cname)).median ∧
          d.min = specDiff (calculateStatistics da.data (da.headers.indexOf cname)).min
            (calculateStatistics db.data (db.headers.indexOf cname)).min ∧
          d.max = specDiff (calculateStatistics da.data (da.headers.indexOf cname)).max
            (calculateStatistics db.data (db.headers.indexOf cname)).max ∧
          d.variance = specDiff
            (calculateStatistics da.data (da.headers.indexOf cname)).variance
            (calculateStatistics db.data (db.headers.indexOf cname)).variance ∧
          d.stdDev.toReal = specDiffReal
            ((calculateStatistics da.data (da.headers.indexOf cname)).stdDev.map
              RVal.toReal)
            ((calculateStatistics db.data (db.headers.indexOf cname)).stdDev.map
              RVal.toReal) := by
  constructor
  · rfl
  · intro datasets cname ids da db hmem h2 hfil
    have hne : datasets ≠ [] := by
      intro h
      subst h
      simp [allColumnsOf] at hmem
    have hlen0 : ¬ datasets.length = 0 := by
      simpa [List.length_eq_zero] using hne
    have hnl : ¬ ids.length < 2 := by omega
    refine ⟨{ columnName := cname
              datasets :=
                [(da.id, da.name, calculateStatistics da.data (da.headers.indexOf cname)),
                 (db.id, db.name, calculateStatistics db.data (db.headers.indexOf cname))]
              differences :=
                [{ mean := calculateDifference
                     (calculateStatistics da.data (da.headers.indexOf cname)).mean
                     (calculateStatistics db.data (db.headers.indexOf cname)).mean
                   median := calculateDifference
                     (calculateStatistics da.data (da.headers.indexOf cname)).median
                     (calculateStatistics db.data (db.headers.indexOf cname)).median
                   stdDev := calculateDifferenceR
                     (calculateStatistics da.data (da.headers.indexOf cname)).stdDev
                     (calculateStatistics db.data (db.headers.indexOf cname)).stdDev
                   min := calculateDifference
                     (calculateStatistics da.data (da.headers.indexOf cname)).min
                     (calculateStatistics db.data (db.headers.indexOf cname)).min
                   max := calculateDifference
                     (calculateStatistics da.data (da.headers.indexOf cname)).max
                     (calculateStatistics db.data (db.headers.indexOf cname)).max
                   variance := calculateDifference
                     (calculateStatistics da.data (da.headers.indexOf cname)).variance
                     (calculateStatistics db.data (db.headers.indexOf cname)).variance }] },
            ?_, rfl, rfl, ?_⟩
    · simp only [compareDatasets, if_neg hlen0]
      apply List.mem_filterMap.mpr
      refine ⟨(cname, ids), hmem, ?_⟩
      simp only [hfil, if_neg hnl, List.map_cons, List.map_nil]
    · refine ⟨_, rfl, ?_, ?_, ?_, ?_, ?_, ?_⟩
      · exact calculateDifference_eq_specDiff _ _
      · exact calculateDifference_eq_specDiff _ _
      · exact calculateDifference_eq_specDiff _ _
      · exact calculateDifference_eq_specDiff _ _
      · exact calculateDifference_eq_specDiff _ _
      · exact calculateDifferenceR_toReal _ _

/-- First witness dataset: one column `Score` with single value 50. -/
def wDS1 : Dataset :=
  { id := "f1", name := "File1"
    data := [[strCell "Score"], [numCell "50" 50]]
    headers := ["Score"], columnIndices := [0] }

/-- Second witness dataset: one column `Score` with single value 60. -/
def wDS2 : Dataset :=
  { id := "f2", name := "File2"
    data := [[strCell "Score"], [numCell "60" 60]]
    headers := ["Score"], columnIndices := [0] }

/-- Claim C5 witness: the empty call and a two-file comparison over the
shared column `Score`. -/
theorem claim_C5_witness :
    compareDatasets [] = [] ∧ 0 < (compareDatasets [wDS1, wDS2]).length := by
  refine ⟨claim_C5.1, ?_⟩
  obtain ⟨r, hr, -⟩ := claim_C5.2 [wDS1, wDS2] "Score" ["f1", "f2"] wDS1 wDS2
    (by decide) (by decide) (by decide)
  exact List.length_pos.mpr (List.ne_nil_of_mem hr)

/-! ### Claim C2: deduplication and limiting in the chart preparers -/

theorem jsDedup_structure (key : α → β) [DecidableEq β] :
    ∀ (l acc : List α), ∃ ext, l.foldl (jsDedupStep key) acc = acc ++ ext ∧
      (∀ e ∈ ext, e ∈ l) ∧ (∀ e ∈ ext, ∀ a ∈ acc, ¬ key a = key e) := by
  intro l
  induction l with
  | nil => intro acc; exact ⟨[], by simp, by simp, by simp⟩
  | cons c t ih =>
    intro acc
    by_cases hany : (acc.any fun item => key item = key c) = true
    · have hstep : jsDedupStep key acc c = acc := by rw [jsDedupStep, if_pos hany]
      obtain ⟨ext, h1, h2, h3⟩ := ih acc
      refine ⟨ext, ?_, fun e he => List.mem_cons_of_mem _ (h2 e he), h3⟩
      rw [List.foldl_cons, hstep, h1]
    · have hstep : jsDedupStep key acc c = acc ++ [c] := by rw [jsDedupStep, if_neg hany]
      obtain ⟨ext, h1, h2, h3⟩ := ih (acc ++ [c])
      refine ⟨c :: ext, ?_, ?_, ?_⟩
      · rw [List.foldl_cons, hstep, h1, List.append_assoc]
        rfl
      · intro e he
        rcases List.mem_cons.mp he with rfl | he
        · exact List.mem_cons_self _ _
        · exact List.mem_cons_of_mem _ (h2 e he)
      · intro e he a ha
        rcases List.mem_cons.mp he with rfl | he
        · intro hk
          apply hany
          simp only [List.any_eq_true, decide_eq_true_eq]
          exact ⟨a, ha, hk⟩
        · exact h3 e he a (List.mem_append_left _ ha)

theorem mem_of_mem_jsDedup (key : α → β) [DecidableEq β] (l : List α) {x : α}
    (hx : x ∈ jsDedup key l) : x ∈ l := by
  obtain ⟨ext, h1, h2, _⟩ := jsDedup_structure key l []
  rw [jsDedup, h1] at hx
  exact h2 x (by simpa using hx)

theorem nodup_keys_foldl_jsDedup (key : α → β) [DecidableEq β] :
    ∀ (l acc : List α), ((acc.map key).Nodup) →
      (((l.foldl (jsDedupStep key) acc).map key).Nodup) := by
  intro l
  induction l with
  | nil => intro acc h; simpa using h
  | cons c t ih =>
    intro acc h
    rw [List.foldl_cons]
    by_cases hany : (acc.any fun item => key item = key c) = true
    · rw [jsDedupStep, if_pos hany]
      exact ih acc h
    · rw [jsDedupStep, if_neg hany]
      apply ih
      rw [List.map_append, List.nodup_append]
      refine ⟨h, by simp, ?_⟩
      intro b hb
      obtain ⟨a, ha, rfl⟩ := List.mem_map.mp hb
      simp only [List.map_cons, List.map_nil, List.mem_singleton]
      intro hk
      apply hany
      simp only [List.any_eq_true, decide_eq_true_eq]
      exact ⟨a, ha, hk⟩

theorem nodup_keys_jsDedup (key : α → β) [DecidableEq β] (l : List α) :
    ((jsDedup key l).map key).Nodup :=
  nodup_keys_foldl_jsDedup key l [] (by simp)

/-- In a descending-sorted list, the element kept by the deduplication
dominates every same-key element of the list. -/
theorem foldl_dedup_dominates (key : α → β) [DecidableEq β] (f : α → ℚ) :
    ∀ (l acc : List α), List.Pairwise (descBy f) l →
      (∀ a ∈ acc, ∀ y ∈ l, key y = key a → f y ≤ f a) →
      ∀ x ∈ l.foldl (jsDedupStep key) acc, ∀ y ∈ l, key y = key x → f y ≤ f x := by
  intro l
  induction l with
  | nil => intro acc _ _ x _ y hy; simp at hy
  | cons c t ih =>
    intro acc hpw hacc x hx y hy hkey
    have hc : ∀ z ∈ t, f z ≤ f c := fun z hz => (List.pairwise_cons.mp hpw).1 z hz
    have hpt : List.Pairwise (descBy f) t := (List.pairwise_cons.mp hpw).2
    rw [List.foldl_cons] at hx
    have hacc' : ∀ a ∈ jsDedupStep key acc c, ∀ z ∈ t, key z = key a → f z ≤ f a := by
      intro a ha z hz hk
      by_cases hany : (acc.any fun item => key item = key c) = true
      · rw [jsDedupStep, if_pos hany] at ha
        exact hacc a ha z (List.mem_cons_of_mem _ hz) hk
      · rw [jsDedupStep, if_neg hany] at ha
        rcases List.mem_append.mp ha with ha | ha
        · exact hacc a ha z (List.mem_cons_of_mem _ hz) hk
        · have haeq : a = c := by simpa using ha
          subst haeq
          exact hc z hz
    rcases List.mem_cons.mp hy with rfl | hyt
    · by_cases hany : (acc.any fun item => key item = key y) = true
      · obtain ⟨a0, ha0, hk0⟩ : ∃ a ∈ acc, key a = key y := by
          simpa using hany
        rw [jsDedupStep, if_pos hany] at hx
        obtain ⟨ext, hE, _, hfresh⟩ := jsDedup_structure key t acc
        rw [hE] at hx
        rcases List.mem_append.mp hx with hx | hx
        · exact hacc x hx y (List.mem_cons_self _ _) hkey
        · exact absurd (hk0.trans hkey) (hfresh x hx a0 ha0)
      · rw [jsDedupStep, if_neg hany] at hx
        obtain ⟨ext, hE, _, hfresh⟩ := jsDedup_structure key t (acc ++ [y])
        rw [hE] at hx
        rcases List.mem_append.mp hx with hx | hx
        · rcases List.mem_append.mp hx with hx | hx
          · exact hacc x hx y (List.mem_cons_self _ _) hkey
          · have hxeq : x = y := by simpa using hx
            subst hxeq
            exact le_refl _
        · exact absurd hkey (hfresh x hx y (by simp))
    · exact ih (jsDedupStep key acc c) hpt hacc' x hx y hyt hkey

theorem mem_limited_sub_raw (data : Matrix) (lci vci limit : ℕ) {item : LV}
    (h : item ∈ limitedLabelValueData data lci vci limit) :
    item ∈ rawPairs data lci vci limit := by
  have h1 := List.take_subset _ _ h
  have h2 := mem_of_mem_jsDedup LV.label _ h1
  exact (List.mem_insertionSort _).mp h2

theorem rawPairs_provenance (data : Matrix) (lci vci limit : ℕ) {item : LV}
    (h : item ∈ rawPairs data lci vci limit) :
    ∃ row ∈ (data.drop 1).take limit,
      getCell row lci = item.label ∧ (getCell row vci).parseFloat = some item.value := by
  obtain ⟨row, hrow, hsome⟩ := List.mem_filterMap.mp h
  cases hpf : (getCell row vci).parseFloat with
  | none => rw [hpf] at hsome; simp at hsome
  | some q =>
    rw [hpf] at hsome
    simp only [Option.map_some', Option.some.injEq] at hsome
    subst hsome
    exact ⟨row, hrow, rfl, hpf⟩

theorem limited_labels_nodup (data : Matrix) (lci vci limit : ℕ) :
    ((limitedLabelValueData data lci vci limit).map LV.label).Nodup := by
  have h := nodup_keys_jsDedup LV.label
    ((rawPairs data lci vci limit).insertionSort (descBy LV.value))
  rw [limitedLabelValueData, List.map_take]
  exact List.Nodup.sublist (List.take_sublist _ _) h

/-- The concrete matrix falsifying claim C2. -/
def c2Matrix : Matrix :=
  [[strCell "l", strCell "v"],
   [strCell "A", numCell "1" 1],
   [strCell "B", numCell "2" 2]]

/-- Claim C2 counterexample: with limit 1, the label `B` occurs only in
the second data row — after the first `limit` data rows — yet it cannot
appear in the output, because the preparers cap extraction at
`slice(1, limit + 1)` before deduplicating.  The claim's assertion that
such a label "can still appear" is false. -/
theorem claim_C2_counterexample :
    getCell (c2Matrix.getD 2 []) 0 = strCell "B" ∧
    strCell "B" ∉ (prepareBarChartData c2Matrix 0 1 1).labels := by
  exact ⟨rfl, by decide⟩

/-- Claim C2 (amended): the bar/pie/treemap preparers extract only the
first `limit` data rows, deduplicate by label keeping the first — hence
highest-value — occurrence of the descending-value order, then cap the
deduplicated entries at `limit` again.  Consequently the bar output has
pairwise-distinct labels, at most `limit` of them, all drawn from the
first `limit` data rows (so a label occurring only later never appears);
the treemap output likewise; and the pie output adds at most one
synthetic `Others` label. -/
theorem claim_C2_amended (data : Matrix) (lci vci limit : ℕ) :
    ((prepareBarChartData data lci vci limit).labels =
      (limitedLabelValueData data lci vci limit).map LV.label) ∧
    (prepareBarChartData data lci vci limit).labels.length ≤ limit ∧
    (prepareBarChartData data lci vci limit).labels.Nodup ∧
    (∀ item ∈ limitedLabelValueData data lci vci limit,
      ∃ row ∈ (data.drop 1).take limit,
        getCell row lci = item.label ∧
        (getCell row vci).parseFloat = some item.value) ∧
    (∀ item ∈ limitedLabelValueData data lci vci limit,
      ∀ other ∈ rawPairs data lci vci limit,
        other.label = item.label → other.value ≤ item.value) ∧
    (prepareTreeMapData data vci limit).length ≤ limit ∧
    ((prepareTreeMapData data vci limit).map TM.name).Nodup ∧
    (∀ item ∈ prepareTreeMapData data vci limit,
      ∃ row ∈ (data.drop 1).take limit,
        "Category " ++ (getCell row 0).display = item.name ∧
        (getCell row vci).parseFloat = some item.value) ∧
    (preparePieChartData data lci vci limit).labels.length ≤ limit + 1 ∧
    (∀ l ∈ (preparePieChartData data lci vci limit).labels,
      l = othersLabel ∨ ∃ row ∈ (data.drop 1).take limit, getCell row lci = l) := by
  have hlimlen : (limitedLabelValueData data lci vci limit).length ≤ limit := by
    rw [limitedLabelValueData, List.length_take]
    exact min_le_left _ _
  refine ⟨rfl, ?_, ?_, ?_, ?_, ?_, ?_, ?_, ?_, ?_⟩
  · show ((limitedLabelValueData data lci vci limit).map LV.label).length ≤ limit
    rw [List.length_map]
    exact hlimlen
  · exact limited_labels_nodup data lci vci limit
  · intro item h
    exact rawPairs_provenance data lci vci limit (mem_limited_sub_raw data lci vci limit h)
  · intro item hitem other hother hkey
    have hsorted : List.Pairwise (descBy LV.value)
        ((rawPairs data lci vci limit).insertionSort (descBy LV.value)) :=
      List.sorted_insertionSort _ _
    have hitem' : item ∈ ((rawPairs data lci vci limit).insertionSort
        (descBy LV.value)).foldl (jsDedupStep LV.label) [] := by
      have := List.take_subset _ _ hitem
      rw [limitedLabelValueData, jsDedup] at hitem
      exact List.take_subset _ _ hitem
    have hother' : other ∈ (rawPairs data lci vci limit).insertionSort (descBy LV.value) :=
      (List.mem_insertionSort _).mpr hother
    exact foldl_dedup_dominates LV.label LV.value _ [] hsorted (by simp)
      item hitem' other hother' hkey
  · rw [prepareTreeMapData, List.length_take]
    exact min_le_left _ _
  · rw [prepareTreeMapData, List.map_take]
    exact List.Nodup.sublist (List.take_sublist _ _) (nodup_keys_jsDedup TM.name _)
  · intro item hitem
    have h1 := List.take_subset _ _ hitem
    have h2 := mem_of_mem_jsDedup TM.name _ h1
    have h3 := (List.mem_insertionSort _).mp h2
    obtain ⟨row, hrow, hsome⟩ := List.mem_filterMap.mp h3
    cases hpf : (getCell row vci).parseFloat with
    | none => rw [hpf] at hsome; simp at hsome
    | some q =>
      rw [hpf] at hsome
      simp only [Option.map_some', Option.some.injEq] at hsome
      subst hsome
      exact ⟨row, hrow, rfl, hpf⟩
  · show ((preparePieChartData data lci vci limit).labels).length ≤ limit + 1
    simp only [preparePieChartData]
    split
    · rw [List.length_map, List.length_append, List.length_cons, List.length_nil]
      have := List.length_filter_le
        (fun item => ratioAtLeast1pc item.value
          ((List.map LV.value (limitedLabelValueData data lci vci limit)).sum))
        (limitedLabelValueData data lci vci limit)
      omega
    · rw [List.length_map]
      have := List.length_filter_le
        (fun item => ratioAtLeast1pc item.value
          ((List.map LV.value (limitedLabelValueData data lci vci limit)).sum))
        (limitedLabelValueData data lci vci limit)
      omega
  · intro l hl
    simp only [preparePieChartData] at hl
    have hsig : ∀ item ∈ (limitedLabelValueData data lci vci limit).filter
        (fun item => ratioAtLeast1pc item.value
          ((List.map LV.value (limitedLabelValueData data lci vci limit)).sum)),
        ∃ row ∈ (data.drop 1).take limit, getCell row lci = item.label := by
      intro item hi
      obtain ⟨row, hrow, hlab, _⟩ := rawPairs_provenance data lci vci limit
        (mem_limited_sub_raw data lci vci limit (List.mem_filter.mp hi).1)
      exact ⟨row, hrow, hlab⟩
    revert hl
    split
    · intro hl
      rw [List.map_append] at hl
      rcases List.mem_append.mp hl with hl | hl
      · obtain ⟨item, hi, rfl⟩ := List.mem_map.mp hl
        exact Or.inr (hsig item hi)
      · left
        simpa using hl
    · intro hl
      obtain ⟨item, hi, rfl⟩ := List.mem_map.mp hl
      exact Or.inr (hsig item hi)

/-- Claim C2 witness: distinctness and the cap at the counterexample
matrix with limit 2 (both data rows read). -/
theorem claim_C2_witness :
    (prepareBarChartData c2Matrix 0 1 2).labels.Nodup ∧
    (prepareBarChartData c2Matrix 0 1 2).labels.length ≤ 2 :=
  ⟨(claim_C2_amended c2Matrix 0 1 2).2.2.1, (claim_C2_amended c2Matrix 0 1 2).2.1⟩

/-! ### Claim C4: mean / median imputation of missing values -/

theorem filterMap_some_eq_map (l : List α) (f : α → β) :
    l.filterMap (fun a => some (f a)) = l.map f := by
  induction l with
  | nil => rfl
  | cons a t ih => simp [ih]

theorem length_imputeRowGo (stats : ℕ → Option (ℚ × ℚ)) (method : MVMethod)
    (replacement : Option Cell) :
    ∀ (row : List Cell) (k : ℕ),
      (imputeRowGo stats method replacement k row).length = row.length := by
  intro row
  induction row with
  | nil => intro k; rfl
  | cons c rest ih => intro k; simp [imputeRowGo, ih]

theorem getD_imputeRowGo (stats : ℕ → Option (ℚ × ℚ)) (method : MVMethod)
    (replacement : Option Cell) :
    ∀ (row : List Cell) (k j : ℕ), j < row.length →
      (imputeRowGo stats method replacement k row).getD j Cell.missing =
        imputeCell stats method replacement (k + j) (row.getD j Cell.missing) := by
  intro row
  induction row with
  | nil => intro k j h; simp at h
  | cons c rest ih =>
    intro k j h
    cases j with
    | zero => simp [imputeRowGo]
    | succ n =>
      have h' : n < rest.length := by simpa using h
      simp only [imputeRowGo, List.getD_cons_succ]
      rw [ih (k + 1) n h']
      congr 1
      omega

/-- For a non-`remove` method the handler maps the row transform over the
data rows and keeps the header. -/
theorem handleMissingValues_eq_map (data : Matrix) (method : MVMethod)
    (replacement : Option Cell) (h2 : 2 ≤ data.length) (hm : method ≠ .remove) :
    handleMissingValues data method replacement =
      data.headD [] :: (data.drop 1).map
        (imputeRow (fun j =>
          if (method = .meanMethod ∨ method = .medianMethod) ∧
              j < (data.headD []).length then
            columnStatsFor data j
          else none) method replacement) := by
  simp only [handleMissingValues]
  rw [if_neg (show ¬ data.length ≤ 1 by omega)]
  congr 1
  rw [← filterMap_some_eq_map]
  apply List.filterMap_congr
  intro row _
  rw [if_neg]
  simp [hm]

/-- Specification-side description of mean / median imputation, amended:
a missing cell is replaced by its column's mean (method `mean`) or median
(method `median`) only when the column index lies below the header length
and the column has at least one non-missing numeric-parseable value;
every other cell is unchanged. -/
def expectedImputedCell (data : Matrix) (method : MVMethod) (j : ℕ) (c : Cell) : Cell :=
  if c.isMissing = true ∧ j < (data.headD []).length ∧
      columnNumericValues data j ≠ [] then
    match method with
    | .meanMethod => Cell.num (listMean (columnNumericValues data j))
    | .medianMethod => Cell.num (listMedian (columnNumericValues data j))
    | _ => c
  else c

theorem imputeCell_spec (data : Matrix) (method : MVMethod)
    (hm : method = .meanMethod ∨ method = .medianMethod) (j : ℕ) (c : Cell) :
    imputeCell (fun j =>
      if (method = .meanMethod ∨ method = .medianMethod) ∧
          j < (data.headD []).length then
        columnStatsFor data j
      else none) method none j c = expectedImputedCell data method j c := by
  rcases hm with rfl | rfl <;>
  · simp only [imputeCell, expectedImputedCell, columnStatsFor]
    by_cases hc : c.isMissing = true
    · rw [if_pos hc]
      by_cases hj : j < (data.headD []).length
      · rw [if_pos ⟨by simp, hj⟩]
        by_cases hnv : columnNumericValues data j = []
        · rw [if_pos (show (columnNumericValues data j).length = 0 by simp [hnv]),
            if_neg (show ¬ (c.isMissing = true ∧ j < (data.headD []).length ∧
              columnNumericValues data j ≠ []) from fun hP => hP.2.2 hnv)]
        · rw [if_neg (show ¬ (columnNumericValues data j).length = 0 by
              simpa [List.length_eq_zero] using hnv),
            if_pos (show c.isMissing = true ∧ j < (data.headD []).length ∧
              columnNumericValues data j ≠ [] from ⟨hc, hj, hnv⟩)]
      · rw [if_neg (show ¬ ((_ ∨ _) ∧ j < (data.headD []).length) from
            fun hP => hj hP.2),
          if_neg (show ¬ (c.isMissing = true ∧ j < (data.headD []).length ∧
            columnNumericValues data j ≠ []) from fun hP => hj hP.2.1)]
    · rw [if_neg hc,
        if_neg (show ¬ (c.isMissing = true ∧ j < (data.headD []).length ∧
          columnNumericValues data j ≠ []) from fun hP => hc hP.1)]

/-- Claim C4 counterexample: the missing cell of row 1 sits in column 1,
beyond the single-entry header row; that column holds the numeric value 3,
yet `handleMissingValues` with method `mean` leaves the cell missing,
because the source computes imputation statistics only for column indices
below the header length.  The claim, as stated, demands the cell be
replaced by the column's mean. -/
def c4Matrix : Matrix :=
  [[strCell "h"],
   [strCell "a", Cell.missing],
   [strCell "b", numCell "3" 3]]

theorem claim_C4_counterexample :
    (getCell (c4Matrix.getD 1 []) 1).isMissing = true ∧
    columnNumericValues c4Matrix 1 = [3] ∧
    getCell ((handleMissingValues c4Matrix .meanMethod none).getD 1 []) 1 =
      Cell.missing := by
  refine ⟨rfl, by decide, by decide⟩

/-- Claim C4 (amended): for a matrix with at least one data row and
method `mean` or `median`, the handler keeps the row count, the header
row and each row's length, and rewrites each cell to
`expectedImputedCell`: missing cells are replaced by the column's
mean / median of its non-missing numeric-parseable values when the column
index lies below the header length and such values exist, and all other
cells — including missing cells of columns beyond the header length or
with no numeric values — are unchanged. -/
theorem claim_C4_amended (data : Matrix) (method : MVMethod)
    (hm : method = .meanMethod ∨ method = .medianMethod)
    (h2 : 2 ≤ data.length) (i j : ℕ) :
    (handleMissingValues data method none).length = data.length ∧
    (handleMissingValues data method none).headD [] = data.headD [] ∧
    ((handleMissingValues data method none).getD (i + 1) []).length =
      (data.getD (i + 1) []).length ∧
    (j < (data.getD (i + 1) []).length →
      getCell ((handleMissingValues data method none).getD (i + 1) []) j =
        expectedImputedCell data method j (getCell (data.getD (i + 1) []) j)) := by
  have hmne : method ≠ .remove := by rcases hm with rfl | rfl <;> simp
  obtain ⟨d0, dt, rfl⟩ : ∃ d0 dt, data = d0 :: dt := by
    cases data with
    | nil => simp at h2
    | cons d0 dt => exact ⟨d0, dt, rfl⟩
  rw [handleMissingValues_eq_map _ method none h2 hmne]
  simp only [List.headD_cons, List.drop_succ_cons, List.drop_zero, List.getD_cons_succ]
  refine ⟨by simp, trivial, ?_, ?_⟩
  · by_cases hi : i < dt.length
    · rw [List.getD_eq_getElem?_getD, List.getElem?_map, List.getElem?_eq_getElem hi]
      rw [List.getD_eq_getElem?_getD dt, List.getElem?_eq_getElem hi]
      simp only [Option.map_some', Option.getD_some]
      exact length_imputeRowGo _ _ _ _ 0
    · rw [List.getD_eq_getElem?_getD, List.getElem?_map,
        List.getD_eq_getElem?_getD dt]
      rw [List.getElem?_eq_none (by omega)]
      rfl
  · intro hj
    by_cases hi : i < dt.length
    · rw [List.getD_eq_getElem?_getD, List.getElem?_map, List.getElem?_eq_getElem hi]
      simp only [Option.map_some', Option.getD_some]
      rw [List.getD_eq_getElem?_getD dt, List.getElem?_eq_getElem hi] at hj ⊢
      simp only [Option.getD_some] at hj ⊢
      show (imputeRowGo _ method none 0 dt[i]).getD j Cell.missing = _
      rw [getD_imputeRowGo _ method none dt[i] 0 j hj]
      simp only [Nat.zero_add]
      exact imputeCell_spec (d0 :: dt) method hm j _
    · rw [List.getD_eq_getElem?_getD dt, List.getElem?_eq_none (by omega)] at hj
      simp at hj

/-- The matrix of specification scenario 3 (header `x,y`, rows `1,` and
`2,5`). -/
def c4bMatrix : Matrix :=
  [[strCell "x", strCell "y"],
   [numCell "1" 1, Cell.missing],
   [numCell "2" 2, numCell "5" 5]]

/-- Claim C4 witness: mean imputation at the scenario-3 matrix — the
missing `y` cell of the first data row is rewritten to the expected
imputed cell (the mean of the column's single value 5), and the matrix
shape is preserved. -/
theorem claim_C4_witness :
    getCell ((handleMissingValues c4bMatrix .meanMethod none).getD 1 []) 1 =
      expectedImputedCell c4bMatrix .meanMethod 1 (getCell (c4bMatrix.getD 1 []) 1) ∧
    (handleMissingValues c4bMatrix .meanMethod none).length = c4bMatrix.length := by
  have h := claim_C4_amended c4bMatrix .meanMethod (Or.inl rfl) (by decide) 0 1
  exact ⟨h.2.2.2 (by decide), h.1⟩

/-! ### Claim C6: pie versus bar totals -/

theorem sum_filter_partition (p : α → Bool) (f : α → ℚ) (l : List α) :
    ((l.filter p).map f).sum + ((l.filter (fun x => !p x)).map f).sum =
      (l.map f).sum := by
  induction l with
  | nil => simp
  | cons a t ih =>
    by_cases ha : p a = true <;>
      simp [List.filter_cons, ha] <;> linarith [ih]

theorem all_zero_of_sum_zero_nonneg (l : List ℚ) (hnn : ∀ x ∈ l, 0 ≤ x)
    (hs : l.sum = 0) : ∀ x ∈ l, x = 0 := by
  induction l with
  | nil => simp
  | cons a t ih =>
    have ha : 0 ≤ a := hnn a (by simp)
    have ht : 0 ≤ t.sum := List.sum_nonneg fun x hx => hnn x (by simp [hx])
    have hsum : a + t.sum = 0 := by simpa using hs
    intro x hx
    rcases List.mem_cons.mp hx with rfl | hx
    · linarith
    · exact ih (fun y hy => hnn y (by simp [hy])) (by linarith) x hx

theorem ratioBelow_eq_not_atLeast (v total : ℚ) (ht : total ≠ 0) :
    ratioBelow1pc v total = !(ratioAtLeast1pc v total) := by
  simp [ratioBelow1pc, ratioAtLeast1pc, ht, ← decide_not, not_le]

/-- The under-1% bucketing of the pie chart preserves the total of a
nonnegative entry list. -/
theorem pie_sum_eq (L : List LV) (hLnn : ∀ p ∈ L, 0 ≤ p.value) :
    ((if 0 < ((L.filter (fun item =>
          ratioBelow1pc item.value (L.map LV.value).sum)).map LV.value).sum
      then (L.filter (fun item =>
          ratioAtLeast1pc item.value (L.map LV.value).sum)) ++
        [{ label := othersLabel,
           value := ((L.filter (fun item =>
             ratioBelow1pc item.value (L.map LV.value).sum)).map LV.value).sum }]
      else L.filter (fun item =>
          ratioAtLeast1pc item.value (L.map LV.value).sum)).map LV.value).sum =
    (L.map LV.value).sum := by
  have hvals : ∀ x ∈ L.map LV.value, 0 ≤ x := by
    intro x hx
    obtain ⟨p, hp, rfl⟩ := List.mem_map.mp hx
    exact hLnn p hp
  by_cases hzero : (L.map LV.value).sum = 0
  · have hall : ∀ x ∈ L.map LV.value, x = 0 :=
      all_zero_of_sum_zero_nonneg _ hvals hzero
    have hfb : L.filter (fun item =>
        ratioBelow1pc item.value (L.map LV.value).sum) = [] := by
      apply List.filter_eq_nil_iff.mpr
      intro p hp
      have hp0 : p.value = 0 := hall _ (List.mem_map_of_mem _ hp)
      simp [ratioBelow1pc, hzero, hp0]
    have hfa : L.filter (fun item =>
        ratioAtLeast1pc item.value (L.map LV.value).sum) = [] := by
      apply List.filter_eq_nil_iff.mpr
      intro p hp
      have hp0 : p.value = 0 := hall _ (List.mem_map_of_mem _ hp)
      simp [ratioAtLeast1pc, hzero, hp0]
    rw [hfb, hfa, hzero]
    simp
  · have hcompl : L.filter (fun item =>
        ratioBelow1pc item.value (L.map LV.value).sum) =
        L.filter (fun item =>
          !(ratioAtLeast1pc item.value (L.map LV.value).sum)) :=
      List.filter_congr fun a _ => ratioBelow_eq_not_atLeast _ _ hzero
    have hpart := sum_filter_partition
      (fun item => ratioAtLeast1pc item.value (L.map LV.value).sum) LV.value L
    have hOnn : 0 ≤ ((L.filter (fun item =>
        ratioBelow1pc item.value (L.map LV.value).sum)).map LV.value).sum := by
      apply List.sum_nonneg
      intro x hx
      obtain ⟨p, hp, rfl⟩ := List.mem_map.mp hx
      exact hLnn p (List.mem_filter.mp hp).1
    by_cases hOpos : 0 < ((L.filter (fun item =>
        ratioBelow1pc item.value (L.map LV.value).sum)).map LV.value).sum
    · rw [if_pos hOpos, List.map_append, List.sum_append]
      simp only [List.map_cons, List.map_nil, List.sum_cons, List.sum_nil]
      rw [hcompl] at hOpos ⊢
      linarith [hpart]
    · rw [if_neg hOpos]
      have hO0 : ((L.filter (fun item =>
          ratioBelow1pc item.value (L.map LV.value).sum)).map LV.value).sum = 0 :=
        le_antisymm (by linarith) hOnn
      rw [hcompl] at hO0
      linarith [hpart]

/-- Claim C6 (amended): when every extracted value is nonnegative, the
pie chart dataset values (including any `Others` entry) sum to the same
total as the bar chart values for the same matrix, columns and limit.
Signed values break the claim: a negative under-1% bucket is dropped. -/
theorem claim_C6_amended (data : Matrix) (lci vci limit : ℕ)
    (hnn : ∀ p ∈ rawPairs data lci vci limit, 0 ≤ p.value) :
    ((preparePieChartData data lci vci limit).values).sum =
      ((prepareBarChartData data lci vci limit).values).sum := by
  have hLnn : ∀ p ∈ limitedLabelValueData data lci vci limit, 0 ≤ p.value :=
    fun p hp => hnn p (mem_limited_sub_raw data lci vci limit hp)
  have h := pie_sum_eq (limitedLabelValueData data lci vci limit) hLnn
  simpa [preparePieChartData, prepareBarChartData] using h

/-- The matrix falsifying claim C6: label `B` carries the negative value
-1, below 1% of the total 999, so its bucket is dropped rather than
appended as `Others`. -/
def c6Matrix : Matrix :=
  [[strCell "l", strCell "v"],
   [strCell "A", numCell "1000" 1000],
   [strCell "B", numCell "-1" (-1)]]

theorem claim_C6_counterexample :
    ((preparePieChartData c6Matrix 0 1 8).values).sum ≠
      ((prepareBarChartData c6Matrix 0 1 8).values).sum := by
  have h1 : limitedLabelValueData c6Matrix 0 1 8 =
      [{ label := strCell "A", value := 1000 },
       { label := strCell "B", value := -1 }] := by
    decide
  simp only [preparePieChartData, prepareBarChartData, h1]
  norm_num [ratioAtLeast1pc, ratioBelow1pc, List.filter_cons, List.filter_nil]

/-- The all-nonnegative matrix for the C6 witness. -/
def c6bMatrix : Matrix :=
  [[strCell "l", strCell "v"],
   [strCell "A", numCell "5" 5],
   [strCell "B", numCell "1" 1]]

/-- Claim C6 witness at a nonnegative two-row matrix. -/
theorem claim_C6_witness :
    ((preparePieChartData c6bMatrix 0 1 8).values).sum =
      ((prepareBarChartData c6bMatrix 0 1 8).values).sum :=
  claim_C6_amended c6bMatrix 0 1 8 (by decide)

end BVI
